import Mathlib

/-!
Shallow embedding of the quran-flashcards application core (src/app.js).

The navigation state machine lives in `goNext`, `goPrev`, `switchMode`
(app.js lines 252–337); the option shuffler in `shuffleArray`
(lines 145–155); answer evaluation in `checkAnswer` (lines 162–189).
"Quiz" mode in the spec corresponds to `isMcqMode = true` in the code,
"Review" (flashcard) mode to `isMcqMode = false`.

Indices are modelled as `Nat`.  The JS conditions of the form
`x < len - 1` are written with truncated `Nat` subtraction, which agrees
with the JS comparison for every `x ≥ 0` (both are false when `len = 0`).
-/

/-- A quiz word: the smallest MCQ unit (data model of `surahs.json` as the
code reads it: `word.arabic`, `word.transliteration`, `word.meaning`,
`word.options`). -/
structure Word where
  arabic : String
  transliteration : String
  meaning : String
  options : List String
deriving Repr, DecidableEq, Inhabited

/-- A verse (ayah): `ayah.number`, `ayah.arabic`, `ayah.transliteration`,
`ayah.meaning`, `ayah.words`. -/
structure Ayah where
  number : Nat
  arabic : String
  transliteration : String
  meaning : String
  words : List Word
deriving Repr, DecidableEq, Inhabited

/-- The loaded corpus (`surahData` in app.js): a surah number plus its
ordered list of ayahs. -/
structure Surah where
  number : Nat
  ayahs : List Ayah
deriving Repr, DecidableEq, Inhabited

/-- The mutable navigation state of app.js: `currentAyahIndex`,
`currentWordIndex`, `isMcqMode` (lines 17–21). -/
@[ext]
structure NavState where
  currentAyahIndex : Nat
  currentWordIndex : Nat
  isMcqMode : Bool
deriving Repr, DecidableEq, Inhabited

/-- Number of words of the ayah at index `i` (the code's
`surahData.ayahs[currentAyahIndex].words.length`). -/
def numWords (surah : Surah) (i : Nat) : Nat :=
  (surah.ayahs.getD i default).words.length

/-- `goNext` (app.js lines 252–275).  MCQ mode: advance within the ayah,
else to the next ayah's first word, else no-op.  Flashcard mode: next
ayah, wrapping to 0 from the last ayah. -/
def goNext (surah : Surah) (s : NavState) : NavState :=
  if s.isMcqMode then
    let totalWords := numWords surah s.currentAyahIndex
    if s.currentWordIndex < totalWords - 1 then
      { s with currentWordIndex := s.currentWordIndex + 1 }
    else if s.currentAyahIndex < surah.ayahs.length - 1 then
      { s with currentAyahIndex := s.currentAyahIndex + 1, currentWordIndex := 0 }
    else
      s
  else
    if s.currentAyahIndex < surah.ayahs.length - 1 then
      { s with currentAyahIndex := s.currentAyahIndex + 1 }
    else
      { s with currentAyahIndex := 0 }

/-- `goPrev` (app.js lines 280–299).  MCQ mode: previous word, else the
previous ayah's last word, else no-op.  Flashcard mode: previous ayah if
not first, else no-op. -/
def goPrev (surah : Surah) (s : NavState) : NavState :=
  if s.isMcqMode then
    if s.currentWordIndex > 0 then
      { s with currentWordIndex := s.currentWordIndex - 1 }
    else if s.currentAyahIndex > 0 then
      { s with currentAyahIndex := s.currentAyahIndex - 1,
               currentWordIndex := numWords surah (s.currentAyahIndex - 1) - 1 }
    else
      s
  else
    if s.currentAyahIndex > 0 then
      { s with currentAyahIndex := s.currentAyahIndex - 1 }
    else
      s

/-- `switchMode` (app.js lines 318–337): sets `isMcqMode`; resets
`currentWordIndex` to 0 when entering MCQ mode. -/
def switchMode (newIsMcq : Bool) (s : NavState) : NavState :=
  let s' := { s with isMcqMode := newIsMcq }
  if newIsMcq then { s' with currentWordIndex := 0 } else s'

/-- The last valid word index of the ayah at index `i` (length − 1). -/
def lastWordIndex (surah : Surah) (i : Nat) : Nat :=
  numWords surah i - 1

/-- The last valid ayah index. -/
def lastAyahIndex (surah : Surah) : Nat :=
  surah.ayahs.length - 1

/-- Claim C1: in Quiz (MCQ) mode, on a valid position, `goNext` increments
the word index when it is not the last of the current verse; otherwise it
moves to the next verse's first word when the verse is not the last;
otherwise (last word of last verse) it is a no-op. -/
theorem C1_goNext_quiz (surah : Surah) (s : NavState)
    (hm : s.isMcqMode = true)
    (hA : s.currentAyahIndex < surah.ayahs.length)
    (hW : s.currentWordIndex < numWords surah s.currentAyahIndex) :
    (s.currentWordIndex ≠ lastWordIndex surah s.currentAyahIndex →
      goNext surah s = { s with currentWordIndex := s.currentWordIndex + 1 }) ∧
    (s.currentWordIndex = lastWordIndex surah s.currentAyahIndex →
      s.currentAyahIndex ≠ lastAyahIndex surah →
      goNext surah s =
        { s with currentAyahIndex := s.currentAyahIndex + 1, currentWordIndex := 0 }) ∧
    (s.currentWordIndex = lastWordIndex surah s.currentAyahIndex →
      s.currentAyahIndex = lastAyahIndex surah →
      goNext surah s = s) := by
  unfold goNext lastWordIndex lastAyahIndex at *
  simp only [hm, if_true]
  refine ⟨?_, ?_, ?_⟩
  · intro h
    rw [if_pos (by omega)]
  · intro h1 h2
    rw [if_neg (by omega), if_pos (by omega)]
  · intro h1 h2
    rw [if_neg (by omega), if_neg (by omega)]

/-- The two-verse corpus of the spec's Quiz scenario: verse 0 has 2 words,
verse 1 has 1 word. -/
def exSurah : Surah :=
  { number := 1,
    ayahs :=
      [ { number := 1, arabic := "", transliteration := "", meaning := "",
          words :=
            [ { arabic := "", transliteration := "", meaning := "a", options := ["a"] },
              { arabic := "", transliteration := "", meaning := "b", options := ["b"] } ] },
        { number := 2, arabic := "", transliteration := "", meaning := "",
          words :=
            [ { arabic := "", transliteration := "", meaning := "c", options := ["c"] } ] } ] }

/-- Witness for C1 at a concrete quiz state. -/
theorem C1_goNext_quiz_witness :
    let s : NavState := { currentAyahIndex := 0, currentWordIndex := 0, isMcqMode := true }
    s.isMcqMode = true ∧ s.currentAyahIndex < exSurah.ayahs.length ∧
      s.currentWordIndex < numWords exSurah s.currentAyahIndex ∧
      ((s.currentWordIndex ≠ lastWordIndex exSurah s.currentAyahIndex →
          goNext exSurah s = { s with currentWordIndex := s.currentWordIndex + 1 }) ∧
        (s.currentWordIndex = lastWordIndex exSurah s.currentAyahIndex →
          s.currentAyahIndex ≠ lastAyahIndex exSurah →
          goNext exSurah s =
            { s with currentAyahIndex := s.currentAyahIndex + 1, currentWordIndex := 0 }) ∧
        (s.currentWordIndex = lastWordIndex exSurah s.currentAyahIndex →
          s.currentAyahIndex = lastAyahIndex exSurah →
          goNext exSurah s = s)) :=
  ⟨rfl, by decide, by decide,
    C1_goNext_quiz exSurah _ rfl (by decide) (by decide)⟩

/-- A corpus is well-formed when it has at least one ayah and every ayah
has at least one word (the shape `surahs.json` is assumed to have). -/
def WellFormed (surah : Surah) : Prop :=
  surah.ayahs ≠ [] ∧ ∀ a ∈ surah.ayahs, a.words ≠ []

instance (surah : Surah) : Decidable (WellFormed surah) := by
  unfold WellFormed
  infer_instance

/-- A well-formed corpus has a nonempty word list at every valid ayah
index. -/
theorem numWords_pos (surah : Surah) (hwf : WellFormed surah)
    (i : Nat) (hi : i < surah.ayahs.length) : 0 < numWords surah i := by
  unfold numWords
  have hmem : surah.ayahs.getD i default ∈ surah.ayahs := by
    rw [List.getD_eq_getElem surah.ayahs default hi]
    exact List.getElem_mem hi
  have := hwf.2 _ hmem
  cases h : (surah.ayahs.getD i default).words with
  | nil => exact absurd h this
  | cons a t => simp

/-- Claim C2: in Quiz (MCQ) mode, `goPrev` decrements the word index when
it is positive; otherwise it moves to the previous verse's last word when
the verse index is positive; otherwise (position (0,0)) it is a no-op. -/
theorem C2_goPrev_quiz (surah : Surah) (s : NavState)
    (hm : s.isMcqMode = true) :
    (0 < s.currentWordIndex →
      goPrev surah s = { s with currentWordIndex := s.currentWordIndex - 1 }) ∧
    (s.currentWordIndex = 0 → 0 < s.currentAyahIndex →
      goPrev surah s =
        { s with currentAyahIndex := s.currentAyahIndex - 1,
                 currentWordIndex := lastWordIndex surah (s.currentAyahIndex - 1) }) ∧
    (s.currentWordIndex = 0 → s.currentAyahIndex = 0 →
      goPrev surah s = s) := by
  unfold goPrev lastWordIndex
  simp only [hm, if_true]
  refine ⟨?_, ?_, ?_⟩
  · intro h
    rw [if_pos (by omega)]
  · intro h1 h2
    rw [if_neg (by omega), if_pos (by omega)]
  · intro h1 h2
    rw [if_neg (by omega), if_neg (by omega)]

/-- Witness for C2 at the concrete quiz state (1,0). -/
theorem C2_goPrev_quiz_witness :
    let s : NavState := { currentAyahIndex := 1, currentWordIndex := 0, isMcqMode := true }
    s.isMcqMode = true ∧
      ((0 < s.currentWordIndex →
          goPrev exSurah s = { s with currentWordIndex := s.currentWordIndex - 1 }) ∧
        (s.currentWordIndex = 0 → 0 < s.currentAyahIndex →
          goPrev exSurah s =
            { s with currentAyahIndex := s.currentAyahIndex - 1,
                     currentWordIndex := lastWordIndex exSurah (s.currentAyahIndex - 1) }) ∧
        (s.currentWordIndex = 0 → s.currentAyahIndex = 0 →
          goPrev exSurah s = s)) :=
  ⟨rfl, C2_goPrev_quiz exSurah _ rfl⟩

/-- Step lemma: quiz-mode `goNext` inside a verse. -/
theorem goNext_quiz_inc (surah : Surah) (a w : Nat)
    (h : w < numWords surah a - 1) :
    goNext surah ⟨a, w, true⟩ = ⟨a, w + 1, true⟩ := by
  unfold goNext
  simp [h]

/-- Step lemma: quiz-mode `goNext` crossing to the next verse. -/
theorem goNext_quiz_cross (surah : Surah) (a w : Nat)
    (h1 : ¬ w < numWords surah a - 1) (h2 : a < surah.ayahs.length - 1) :
    goNext surah ⟨a, w, true⟩ = ⟨a + 1, 0, true⟩ := by
  unfold goNext
  simp [h1, h2]

/-- Step lemma: quiz-mode `goPrev` inside a verse. -/
theorem goPrev_quiz_dec (surah : Surah) (a w : Nat) (h : 0 < w) :
    goPrev surah ⟨a, w, true⟩ = ⟨a, w - 1, true⟩ := by
  unfold goPrev
  simp [h]

/-- Step lemma: quiz-mode `goPrev` crossing to the previous verse's last
word. -/
theorem goPrev_quiz_cross (surah : Surah) (a : Nat) (h : 0 < a) :
    goPrev surah ⟨a, 0, true⟩ = ⟨a - 1, numWords surah (a - 1) - 1, true⟩ := by
  unfold goPrev
  simp [h]

/-- Step lemma: quiz-mode `goNext` at the last word of the last verse is a
no-op. -/
theorem goNext_quiz_nop (surah : Surah) (a w : Nat)
    (h1 : ¬ w < numWords surah a - 1) (h2 : ¬ a < surah.ayahs.length - 1) :
    goNext surah ⟨a, w, true⟩ = ⟨a, w, true⟩ := by
  unfold goNext
  simp [h1, h2]

/-- Step lemma: quiz-mode `goPrev` at position (0,0) is a no-op. -/
theorem goPrev_quiz_nop (surah : Surah) :
    goPrev surah ⟨0, 0, true⟩ = ⟨0, 0, true⟩ := by
  unfold goPrev
  simp

/-- Step lemma: review-mode `goNext` before the last verse. -/
theorem goNext_review_inc (surah : Surah) (a w : Nat)
    (h : a < surah.ayahs.length - 1) :
    goNext surah ⟨a, w, false⟩ = ⟨a + 1, w, false⟩ := by
  unfold goNext
  simp [h]

/-- Step lemma: review-mode `goNext` from the last verse wraps to 0. -/
theorem goNext_review_wrap (surah : Surah) (a w : Nat)
    (h : ¬ a < surah.ayahs.length - 1) :
    goNext surah ⟨a, w, false⟩ = ⟨0, w, false⟩ := by
  unfold goNext
  simp [h]

/-- Step lemma: review-mode `goPrev` after the first verse. -/
theorem goPrev_review_dec (surah : Surah) (a w : Nat) (h : 0 < a) :
    goPrev surah ⟨a, w, false⟩ = ⟨a - 1, w, false⟩ := by
  unfold goPrev
  simp [h]

/-- Step lemma: review-mode `goPrev` at the first verse is a no-op. -/
theorem goPrev_review_nop (surah : Surah) (a w : Nat) (h : ¬ 0 < a) :
    goPrev surah ⟨a, w, false⟩ = ⟨a, w, false⟩ := by
  unfold goPrev
  simp [h]

/-- Step lemma: `switchMode` on an explicit state. -/
theorem switchMode_mk (b : Bool) (a w : Nat) (m : Bool) :
    switchMode b ⟨a, w, m⟩ = ⟨a, if b then 0 else w, b⟩ := by
  unfold switchMode
  cases b <;> simp

/-- Claim C3: in Quiz mode, from any valid position other than the last
word of the last verse, `goPrev` undoes `goNext` exactly, including across
a verse boundary. -/
theorem C3_prev_next_cancel (surah : Surah) (s : NavState)
    (hm : s.isMcqMode = true)
    (hA : s.currentAyahIndex < surah.ayahs.length)
    (hW : s.currentWordIndex < numWords surah s.currentAyahIndex)
    (hnotlast : ¬(s.currentWordIndex = lastWordIndex surah s.currentAyahIndex ∧
                  s.currentAyahIndex = lastAyahIndex surah)) :
    goPrev surah (goNext surah s) = s := by
  obtain ⟨a, w, m⟩ := s
  simp only at hm hA hW hnotlast
  subst hm
  unfold lastWordIndex lastAyahIndex at hnotlast
  by_cases h1 : w < numWords surah a - 1
  · rw [goNext_quiz_inc surah a w h1, goPrev_quiz_dec surah a (w + 1) (by omega)]
    simp
  · have hw' : w = numWords surah a - 1 := by omega
    have hne : a ≠ surah.ayahs.length - 1 := fun h => hnotlast ⟨hw', h⟩
    rw [goNext_quiz_cross surah a w h1 (by omega),
        goPrev_quiz_cross surah (a + 1) (by omega)]
    simp only [Nat.add_sub_cancel]
    rw [← hw']

/-- Witness for C3 at the verse-boundary position (0,1) of the scenario
corpus. -/
theorem C3_prev_next_cancel_witness :
    let s : NavState := { currentAyahIndex := 0, currentWordIndex := 1, isMcqMode := true }
    s.isMcqMode = true ∧ s.currentAyahIndex < exSurah.ayahs.length ∧
      s.currentWordIndex < numWords exSurah s.currentAyahIndex ∧
      ¬(s.currentWordIndex = lastWordIndex exSurah s.currentAyahIndex ∧
        s.currentAyahIndex = lastAyahIndex exSurah) ∧
      goPrev exSurah (goNext exSurah s) = s :=
  ⟨rfl, by decide, by decide, by decide,
    C3_prev_next_cancel exSurah _ rfl (by decide) (by decide) (by decide)⟩

/-- Claim C4: in Review (flashcard) mode, `goNext` from the last verse
wraps to verse 0 while `goPrev` from verse 0 is a no-op; away from those
boundaries `goNext` increments and `goPrev` decrements the verse index. -/
theorem C4_review_boundaries (surah : Surah) (s : NavState)
    (hm : s.isMcqMode = false)
    (hA : s.currentAyahIndex < surah.ayahs.length) :
    (s.currentAyahIndex = lastAyahIndex surah →
      goNext surah s = { s with currentAyahIndex := 0 }) ∧
    (s.currentAyahIndex = 0 → goPrev surah s = s) ∧
    (s.currentAyahIndex ≠ lastAyahIndex surah →
      goNext surah s = { s with currentAyahIndex := s.currentAyahIndex + 1 }) ∧
    (s.currentAyahIndex ≠ 0 →
      goPrev surah s = { s with currentAyahIndex := s.currentAyahIndex - 1 }) := by
  unfold goNext goPrev lastAyahIndex at *
  simp only [hm, if_false, Bool.false_eq_true]
  refine ⟨?_, ?_, ?_, ?_⟩
  · intro h
    rw [if_neg (by omega)]
  · intro h
    rw [if_neg (by omega)]
  · intro h
    rw [if_pos (by omega)]
  · intro h
    rw [if_pos (by omega)]

/-- Witness for C4 at the concrete review state on the last verse. -/
theorem C4_review_boundaries_witness :
    let s : NavState := { currentAyahIndex := 1, currentWordIndex := 0, isMcqMode := false }
    s.isMcqMode = false ∧ s.currentAyahIndex < exSurah.ayahs.length ∧
      ((s.currentAyahIndex = lastAyahIndex exSurah →
          goNext exSurah s = { s with currentAyahIndex := 0 }) ∧
        (s.currentAyahIndex = 0 → goPrev exSurah s = s) ∧
        (s.currentAyahIndex ≠ lastAyahIndex exSurah →
          goNext exSurah s = { s with currentAyahIndex := s.currentAyahIndex + 1 }) ∧
        (s.currentAyahIndex ≠ 0 →
          goPrev exSurah s = { s with currentAyahIndex := s.currentAyahIndex - 1 })) :=
  ⟨rfl, by decide, C4_review_boundaries exSurah _ rfl (by decide)⟩

/-- Claim C5: `switchMode` into Quiz mode sets the mode, resets the word
index to 0 whatever it was, and keeps the verse index; `switchMode` into
Review mode sets the mode and keeps the verse index. -/
theorem C5_switchMode (s : NavState) :
    (switchMode true s).isMcqMode = true ∧
    (switchMode true s).currentWordIndex = 0 ∧
    (switchMode true s).currentAyahIndex = s.currentAyahIndex ∧
    (switchMode false s).isMcqMode = false ∧
    (switchMode false s).currentAyahIndex = s.currentAyahIndex := by
  unfold switchMode
  simp

/-- Claim C10: `goNext` and `goPrev` never change the mode flag, and in
Review mode they never change the word index. -/
theorem C10_nav_frame (surah : Surah) (s : NavState) :
    (goNext surah s).isMcqMode = s.isMcqMode ∧
    (goPrev surah s).isMcqMode = s.isMcqMode ∧
    (s.isMcqMode = false →
      (goNext surah s).currentWordIndex = s.currentWordIndex ∧
      (goPrev surah s).currentWordIndex = s.currentWordIndex) := by
  obtain ⟨a, w, m⟩ := s
  refine ⟨?_, ?_, fun hmode => ⟨?_, ?_⟩⟩
  · unfold goNext
    dsimp only
    split_ifs <;> rfl
  · unfold goPrev
    dsimp only
    split_ifs <;> rfl
  · simp only at hmode
    subst hmode
    unfold goNext
    dsimp only
    split_ifs <;> simp_all
  · simp only at hmode
    subst hmode
    unfold goPrev
    dsimp only
    split_ifs <;> simp_all

/-- Witness for C10 at a concrete review-mode state. -/
theorem C10_nav_frame_witness :
    let s : NavState := { currentAyahIndex := 1, currentWordIndex := 0, isMcqMode := false }
    (goNext exSurah s).isMcqMode = s.isMcqMode ∧
    (goPrev exSurah s).isMcqMode = s.isMcqMode ∧
    (s.isMcqMode = false →
      (goNext exSurah s).currentWordIndex = s.currentWordIndex ∧
      (goPrev exSurah s).currentWordIndex = s.currentWordIndex) :=
  C10_nav_frame exSurah _

/-- The navigation operations a user can trigger: next, previous, and a
mode switch (`goNext`, `goPrev`, `switchMode` of app.js). -/
inductive NavOp where
  | next : NavOp
  | prev : NavOp
  | switch : Bool → NavOp
deriving Repr, DecidableEq

/-- Apply one operation to the state. -/
def applyOp (surah : Surah) : NavOp → NavState → NavState
  | NavOp.next, s => goNext surah s
  | NavOp.prev, s => goPrev surah s
  | NavOp.switch b, s => switchMode b s

/-- Run a sequence of operations from a state. -/
def runOps (surah : Surah) (ops : List NavOp) (s : NavState) : NavState :=
  ops.foldl (fun t op => applyOp surah op t) s

/-- The initial state of app.js lines 17–21: ayah 0, word 0, flashcard
(Review) mode. -/
def initState : NavState :=
  { currentAyahIndex := 0, currentWordIndex := 0, isMcqMode := false }

/-- The operation sequence refuting claim C6: enter quiz mode, advance to
word 1, switch back to review, advance to verse 1 (which has 1 word). -/
def c6Ops : List NavOp :=
  [NavOp.switch true, NavOp.next, NavOp.switch false, NavOp.next]

/-- Counterexample to claim C6 as stated: on the well-formed two-verse
corpus, the state reached by switch-to-quiz, next, switch-to-review, next
has `currentWordIndex = 1` while the current verse (verse 1) has only one
word, so the word index is out of range. -/
theorem C6_counterexample :
    WellFormed exSurah ∧
    runOps exSurah c6Ops initState =
      { currentAyahIndex := 1, currentWordIndex := 1, isMcqMode := false } ∧
    ¬ (runOps exSurah c6Ops initState).currentWordIndex <
        numWords exSurah (runOps exSurah c6Ops initState).currentAyahIndex := by
  refine ⟨by decide, by decide, by decide⟩

/-- The invariant that actually holds on reachable states: the ayah index
is in range, and the word index is in range whenever the mode is Quiz. -/
def Invariant (surah : Surah) (s : NavState) : Prop :=
  s.currentAyahIndex < surah.ayahs.length ∧
    (s.isMcqMode = true → s.currentWordIndex < numWords surah s.currentAyahIndex)

instance (surah : Surah) (s : NavState) : Decidable (Invariant surah s) := by
  unfold Invariant
  infer_instance

/-- Introduction form of `Invariant` on an explicit state. -/
theorem invariant_mk (surah : Surah) (a w : Nat) (m : Bool)
    (h1 : a < surah.ayahs.length)
    (h2 : m = true → w < numWords surah a) :
    Invariant surah ⟨a, w, m⟩ :=
  ⟨h1, h2⟩

/-- One navigation operation preserves `Invariant` on a well-formed
corpus. -/
theorem invariant_step (surah : Surah) (hwf : WellFormed surah)
    (op : NavOp) (s : NavState) (h : Invariant surah s) :
    Invariant surah (applyOp surah op s) := by
  obtain ⟨a, w, m⟩ := s
  obtain ⟨hA, hW⟩ := h
  simp only at hA hW
  have hlen : 0 < surah.ayahs.length := by
    cases hl : surah.ayahs with
    | nil => exact absurd hl hwf.1
    | cons x t => simp [hl]
  cases op with
  | next =>
    show Invariant surah (goNext surah ⟨a, w, m⟩)
    cases m with
    | false =>
      by_cases h : a < surah.ayahs.length - 1
      · rw [goNext_review_inc surah a w h]
        exact invariant_mk surah (a + 1) w false (by omega) (fun hc => by simp at hc)
      · rw [goNext_review_wrap surah a w h]
        exact invariant_mk surah 0 w false (by omega) (fun hc => by simp at hc)
    | true =>
      have hw : w < numWords surah a := hW rfl
      by_cases h1 : w < numWords surah a - 1
      · rw [goNext_quiz_inc surah a w h1]
        exact invariant_mk surah a (w + 1) true (by omega) (fun _ => by omega)
      · by_cases h2 : a < surah.ayahs.length - 1
        · rw [goNext_quiz_cross surah a w h1 h2]
          exact invariant_mk surah (a + 1) 0 true (by omega)
            (fun _ => numWords_pos surah hwf (a + 1) (by omega))
        · rw [goNext_quiz_nop surah a w h1 h2]
          exact invariant_mk surah a w true (by omega) (fun _ => by omega)
  | prev =>
    show Invariant surah (goPrev surah ⟨a, w, m⟩)
    cases m with
    | false =>
      by_cases h : 0 < a
      · rw [goPrev_review_dec surah a w h]
        exact invariant_mk surah (a - 1) w false (by omega) (fun hc => by simp at hc)
      · rw [goPrev_review_nop surah a w h]
        exact invariant_mk surah a w false (by omega) (fun hc => by simp at hc)
    | true =>
      have hw : w < numWords surah a := hW rfl
      by_cases h1 : 0 < w
      · rw [goPrev_quiz_dec surah a w h1]
        exact invariant_mk surah a (w - 1) true (by omega) (fun _ => by omega)
      · have hw0 : w = 0 := by omega
        subst hw0
        by_cases h2 : 0 < a
        · rw [goPrev_quiz_cross surah a h2]
          refine invariant_mk surah (a - 1) (numWords surah (a - 1) - 1) true
            (by omega) (fun _ => ?_)
          have := numWords_pos surah hwf (a - 1) (by omega)
          omega
        · have ha0 : a = 0 := by omega
          subst ha0
          rw [goPrev_quiz_nop surah]
          exact invariant_mk surah 0 0 true (by omega) (fun _ => by omega)
  | switch b =>
    show Invariant surah (switchMode b ⟨a, w, m⟩)
    rw [switchMode_mk b a w m]
    cases b with
    | false =>
      exact invariant_mk surah a w false (by omega) (fun hc => by simp at hc)
    | true =>
      exact invariant_mk surah a 0 true (by omega)
        (fun _ => numWords_pos surah hwf a hA)

/-- Any run of operations preserves `Invariant` on a well-formed corpus. -/
theorem invariant_run (surah : Surah) (hwf : WellFormed surah) :
    ∀ (ops : List NavOp) (s : NavState),
      Invariant surah s → Invariant surah (runOps surah ops s)
  | [], _, h => h
  | op :: rest, s, h =>
    invariant_run surah hwf rest (applyOp surah op s)
      (invariant_step surah hwf op s h)

/-- Claim C6 amended: every state reachable from the initial state on a
well-formed corpus has an in-range ayah index, and an in-range word index
whenever the mode is Quiz. -/
theorem C6_invariant_amended (surah : Surah) (hwf : WellFormed surah)
    (ops : List NavOp) :
    Invariant surah (runOps surah ops initState) := by
  have hlen : 0 < surah.ayahs.length := by
    cases hl : surah.ayahs with
    | nil => exact absurd hl hwf.1
    | cons x t => simp [hl]
  have hinit : Invariant surah initState := by
    refine ⟨by simpa [initState] using hlen, ?_⟩
    intro h
    simp [initState] at h
  exact invariant_run surah hwf ops initState hinit

/-- Witness for the amended C6 on the concrete corpus and a concrete
operation sequence. -/
theorem C6_invariant_amended_witness :
    WellFormed exSurah ∧
    Invariant exSurah (runOps exSurah c6Ops initState) :=
  ⟨by decide, C6_invariant_amended exSurah (by decide) c6Ops⟩

/-- The simultaneous swap `[array[i], array[j]] = [array[j], array[i]]` of
app.js line 152, on a list value (an out-of-range read yields `default`
and an out-of-range write is dropped; the algorithm only uses in-range
indices). -/
def swapAt [Inhabited α] (arr : List α) (i j : Nat) : List α :=
  (arr.set i (arr.getD j default)).set j (arr.getD i default)

/-- The backward loop of `shuffleArray` (app.js lines 147–153): for `i`
from `arr.length - 1` down to 1, swap positions `i` and `rand i`, where
`rand i` models `Math.floor(Math.random() * (i + 1))`, a uniform draw
from `[0, i]`. -/
def fyLoop [Inhabited α] (rand : Nat → Nat) : Nat → List α → List α
  | 0, arr => arr
  | i + 1, arr => fyLoop rand i (swapAt arr (i + 1) (rand (i + 1)))

/-- `shuffleArray` (app.js lines 145–155) with the random source made
explicit. -/
def shuffleArray [Inhabited α] (rand : Nat → Nat) (arr : List α) : List α :=
  fyLoop rand (arr.length - 1) arr

/-- The option list `displayMcqWord` passes to the shuffler (app.js line
122): `shuffleArray([...word.options])`; the spread copies the array, so
the word's stored options are never mutated. -/
def shuffledOptions (rand : Nat → Nat) (word : Word) : List String :=
  shuffleArray rand word.options

theorem length_swapAt [Inhabited α] (arr : List α) (i j : Nat) :
    (swapAt arr i j).length = arr.length := by
  simp [swapAt]

/-- Moving the `j`-th element of `t` to the front while writing `a` into
its slot is a permutation of putting `a` in front. -/
theorem cons_getD_set_perm [Inhabited α] :
    ∀ (t : List α) (j : Nat) (a : α), j < t.length →
      (t.getD j default :: t.set j a).Perm (a :: t)
  | [], j, a, hj => absurd hj (by simp)
  | x :: t, 0, a, _ => by
    simp only [List.getD_cons_zero, List.set_cons_zero]
    exact List.Perm.swap a x t
  | x :: t, j + 1, a, hj => by
    simp only [List.getD_cons_succ, List.set_cons_succ]
    exact (List.Perm.swap x (t.getD j default) (t.set j a)).trans
      (((cons_getD_set_perm t j a (by simpa using hj)).cons x).trans
        (List.Perm.swap a x t))

/-- An in-range swap permutes the list. -/
theorem swapAt_perm [Inhabited α] :
    ∀ (arr : List α) (i j : Nat), i < arr.length → j < arr.length →
      (swapAt arr i j).Perm arr
  | [], i, _, hi, _ => absurd hi (by simp)
  | x :: t, 0, 0, _, _ => by
    simp [swapAt]
  | x :: t, 0, j + 1, _, hj => by
    simp only [swapAt, List.getD_cons_succ, List.getD_cons_zero,
      List.set_cons_zero, List.set_cons_succ]
    exact cons_getD_set_perm t j x (by simpa using hj)
  | x :: t, i + 1, 0, hi, _ => by
    simp only [swapAt, List.getD_cons_succ, List.getD_cons_zero,
      List.set_cons_zero, List.set_cons_succ]
    exact cons_getD_set_perm t i x (by simpa using hi)
  | x :: t, i + 1, j + 1, hi, hj => by
    simp only [swapAt, List.getD_cons_succ, List.set_cons_succ]
    exact (swapAt_perm t i j (by simpa using hi) (by simpa using hj)).cons x

/-- The Fisher–Yates loop permutes the list whenever the random source
stays in range. -/
theorem fyLoop_perm [Inhabited α] (rand : Nat → Nat)
    (hrand : ∀ i, 0 < i → rand i ≤ i) :
    ∀ (i : Nat) (arr : List α), i < arr.length →
      (fyLoop rand i arr).Perm arr
  | 0, arr, _ => List.Perm.refl arr
  | i + 1, arr, hi => by
    have hswap : (swapAt arr (i + 1) (rand (i + 1))).Perm arr :=
      swapAt_perm arr (i + 1) (rand (i + 1)) hi
        (lt_of_le_of_lt (hrand (i + 1) (Nat.succ_pos i)) hi)
    have hlen : i < (swapAt arr (i + 1) (rand (i + 1))).length := by
      rw [length_swapAt]
      omega
    exact (fyLoop_perm rand hrand i _ hlen).trans hswap

/-- Claim C7: for every string array and every in-range random source, the
shuffler's output is a permutation (same multiset) of its input.  (The
input array is itself untouched: app.js line 122 hands the shuffler a
spread copy, and the embedding's list values are immutable.) -/
theorem C7_shuffle_perm (rand : Nat → Nat)
    (hrand : ∀ i, 0 < i → rand i ≤ i) (arr : List String) :
    (shuffleArray rand arr).Perm arr := by
  unfold shuffleArray
  by_cases h : arr.length = 0
  · have h1 : arr.length - 1 = 0 := by omega
    rw [h1]
    exact List.Perm.refl arr
  · exact fyLoop_perm rand hrand (arr.length - 1) arr (by omega)

/-- Witness for C7: the always-0 random source on a concrete 3-element
array. -/
theorem C7_shuffle_perm_witness :
    (∀ i, 0 < i → (fun _ => 0 : Nat → Nat) i ≤ i) ∧
      (shuffleArray (fun _ => 0) ["a", "b", "c"]).Perm ["a", "b", "c"] :=
  ⟨fun i _ => Nat.zero_le i,
    C7_shuffle_perm (fun _ => 0) (fun i _ => Nat.zero_le i) ["a", "b", "c"]⟩

/-- The Fisher–Yates loop with the sequence of random draws listed
explicitly: `applySteps (j :: js) i arr` swaps positions `i` and `j`,
then continues with `js` at `i - 1`. -/
def applySteps [Inhabited α] : List Nat → Nat → List α → List α
  | [], _, arr => arr
  | j :: js, i, arr => applySteps js (i - 1) (swapAt arr i j)

/-- `shuffleArray` as a function of an explicit draw sequence (one draw
per loop step, for `i` from `arr.length - 1` down to 1). -/
def shuffleWith [Inhabited α] (js : List Nat) (arr : List α) : List α :=
  applySteps js (arr.length - 1) arr

/-- The draw sequences the loop can actually consume for an array of
length `n`: one draw per step, the draw at step `i` lying in `[0, i]`
(`Math.floor(Math.random() * (i + 1))` at app.js line 149). -/
def ValidChoices (n : Nat) (js : List Nat) : Prop :=
  js.length = n - 1 ∧ ∀ k, k < js.length → js.getD k 0 ≤ n - 1 - k

instance (n : Nat) (js : List Nat) : Decidable (ValidChoices n js) := by
  unfold ValidChoices
  infer_instance

/-- The draw sequence a random source `rand` produces on a length-`n`
array: `rand (n-1), rand (n-2), …, rand 1`. -/
def drawsOf (rand : Nat → Nat) (n : Nat) : List Nat :=
  (List.range (n - 1)).reverse.map (fun k => rand (k + 1))

/-- The loop consumes exactly the draws `rand (i), rand (i-1), …,
rand 1`. -/
theorem fyLoop_eq_applySteps [Inhabited α] (rand : Nat → Nat) :
    ∀ (i : Nat) (arr : List α),
      fyLoop rand i arr =
        applySteps ((List.range i).reverse.map fun k => rand (k + 1)) i arr
  | 0, arr => rfl
  | i + 1, arr => by
    have hr : (List.range (i + 1)).reverse = i :: (List.range i).reverse := by
      rw [List.range_succ, List.reverse_append]
      rfl
    rw [hr]
    show fyLoop rand (i + 1) arr =
      applySteps ((List.range i).reverse.map fun k => rand (k + 1)) i
        (swapAt arr (i + 1) (rand (i + 1)))
    rw [show fyLoop rand (i + 1) arr =
          fyLoop rand i (swapAt arr (i + 1) (rand (i + 1))) from rfl]
    exact fyLoop_eq_applySteps rand i _

/-- `shuffleArray` is `shuffleWith` on the draw sequence of its random
source: the map from draw sequences to outputs studied below is the
shuffler itself. -/
theorem shuffleArray_eq_shuffleWith [Inhabited α] (rand : Nat → Nat)
    (arr : List α) :
    shuffleArray rand arr = shuffleWith (drawsOf rand arr.length) arr :=
  fyLoop_eq_applySteps rand (arr.length - 1) arr

/-- An in-range random source yields a valid draw sequence. -/
theorem drawsOf_valid (rand : Nat → Nat) (hrand : ∀ i, 0 < i → rand i ≤ i)
    (n : Nat) : ValidChoices n (drawsOf rand n) := by
  unfold ValidChoices drawsOf
  constructor
  · simp
  · intro k hk
    simp only [List.length_map, List.length_reverse, List.length_range] at hk
    have hget : ((List.range (n - 1)).reverse.map fun k => rand (k + 1)).getD k 0 =
        rand (n - 1 - 1 - k + 1) := by
      rw [List.getD_eq_getElem _ _ (by simpa using hk)]
      rw [List.getElem_map, List.getElem_reverse, List.getElem_range,
        List.length_range]
    rw [hget]
    have := hrand (n - 1 - 1 - k + 1) (by omega)
    omega

/-- In a duplicate-free list, `getD` at in-range indices is injective. -/
theorem nodup_getD_inj [Inhabited α] (l : List α) (h : l.Nodup)
    (i j : Nat) (hi : i < l.length) (hj : j < l.length)
    (he : l.getD i default = l.getD j default) : i = j := by
  rw [List.getD_eq_getElem _ _ hi, List.getD_eq_getElem _ _ hj] at he
  exact (List.Nodup.getElem_inj_iff h).mp he

/-- Steps whose indices stay inside the prefix leave an appended final
element untouched. -/
theorem applySteps_append_singleton [Inhabited α] :
    ∀ (js : List Nat) (i : Nat) (b : List α) (x : α),
      i < b.length → (∀ k, k < js.length → js.getD k 0 ≤ i - k) →
      applySteps js i (b ++ [x]) = applySteps js i b ++ [x]
  | [], _, _, _, _, _ => rfl
  | j :: js, i, b, x, hi, hv => by
    have hj : j ≤ i := by simpa using hv 0 (by simp)
    have hswap : swapAt (b ++ [x]) i j = swapAt b i j ++ [x] := by
      unfold swapAt
      rw [List.getD_append _ _ _ _ (by omega), List.getD_append _ _ _ _ (by omega),
        List.set_append_left _ _ (by omega),
        List.set_append_left _ _ (by simp only [List.length_set]; omega)]
    show applySteps js (i - 1) (swapAt (b ++ [x]) i j) =
      applySteps js (i - 1) (swapAt b i j) ++ [x]
    rw [hswap]
    exact applySteps_append_singleton js (i - 1) (swapAt b i j) x
      (by rw [length_swapAt]; omega)
      (fun k hk => by
        have := hv (k + 1) (by simp only [List.length_cons]; omega)
        simp only [List.getD_cons_succ] at this
        omega)

/-- Swapping the final position `t.length` with an in-range `j` writes the
final element into slot `j` and moves the old occupant of `j` to the
end. -/
theorem swapAt_top [Inhabited α] (t : List α) (x : α) (j : Nat)
    (hj : j ≤ t.length) :
    swapAt (t ++ [x]) t.length j =
      t.set j x ++ [(t ++ [x]).getD j default] := by
  by_cases hlt : j < t.length
  · have h1 : (t ++ [x]).getD j default = t.getD j default :=
      List.getD_append _ _ _ _ hlt
    have h2 : (t ++ [x]).getD t.length default = x := by
      rw [List.getD_append_right _ _ _ _ (Nat.le_refl _)]
      simp
    unfold swapAt
    rw [h1, h2, List.set_append_right _ _ (Nat.le_refl _)]
    simp only [Nat.sub_self, List.set_cons_zero]
    rw [List.set_append_left _ _ hlt]
  · have hje : j = t.length := by omega
    subst hje
    have h2 : (t ++ [x]).getD t.length default = x := by
      rw [List.getD_append_right _ _ _ _ (Nat.le_refl _)]
      simp
    unfold swapAt
    rw [h2, List.set_append_right _ _ (Nat.le_refl _)]
    simp only [Nat.sub_self, List.set_cons_zero]
    rw [List.set_append_right _ _ (Nat.le_refl _)]
    simp only [Nat.sub_self, List.set_cons_zero]
    rw [List.set_eq_of_length_le (Nat.le_refl _)]

/-- One loop step on an array written as `prefix ++ [last]`: the first
draw `j` exchanges the last element with slot `j`, and the remaining
steps act on the prefix alone. -/
theorem shuffleWith_cons [Inhabited α] (t : List α) (x : α) (j : Nat)
    (js : List Nat) (hj : j ≤ t.length) (hlen : 0 < t.length)
    (hv : ∀ k, k < js.length → js.getD k 0 ≤ t.length - 1 - k) :
    shuffleWith (j :: js) (t ++ [x]) =
      shuffleWith js (t.set j x) ++ [(t ++ [x]).getD j default] := by
  unfold shuffleWith
  have hL : (t ++ [x]).length - 1 = t.length := by simp
  rw [hL]
  show applySteps js (t.length - 1) (swapAt (t ++ [x]) t.length j) = _
  rw [swapAt_top t x j hj]
  have hset : (t.set j x).length = t.length := by simp
  rw [applySteps_append_singleton js (t.length - 1) (t.set j x) _
    (by rw [hset]; omega) (fun k hk => by have := hv k hk; omega)]
  rw [hset]

/-- Splitting a valid draw sequence into its first draw and the rest. -/
theorem validChoices_cons_iff (n j : Nat) (js : List Nat) (hn : 0 < n) :
    ValidChoices (n + 1) (j :: js) ↔ j ≤ n ∧ ValidChoices n js := by
  unfold ValidChoices
  constructor
  · rintro ⟨hlen, hcond⟩
    simp only [List.length_cons] at hlen
    refine ⟨by simpa using hcond 0 (by simp), by omega, ?_⟩
    intro k hk
    have := hcond (k + 1) (by simp only [List.length_cons]; omega)
    simp only [List.getD_cons_succ] at this
    omega
  · rintro ⟨hj, hlen, hcond⟩
    refine ⟨by simp only [List.length_cons]; omega, ?_⟩
    intro k hk
    cases k with
    | zero => simpa using hj
    | succ k =>
      simp only [List.getD_cons_succ]
      have := hcond k (by simp only [List.length_cons] at hk; omega)
      omega

/-- Fisher–Yates bijectivity: on a duplicate-free array, every permutation
of the array is produced by exactly one valid draw sequence. -/
theorem fy_exists_unique [DecidableEq α] [Inhabited α] :
    ∀ (n : Nat) (arr : List α), arr.length = n → arr.Nodup →
      ∀ l : List α, l.Perm arr →
        ∃! js : List Nat, ValidChoices n js ∧ shuffleWith js arr = l := by
  intro n
  induction n with
  | zero =>
    intro arr hlen hnd l hl
    have harr : arr = [] := List.length_eq_zero.mp hlen
    subst harr
    have hl0 : l = [] := List.perm_nil.mp hl
    subst hl0
    refine ⟨[], ⟨⟨rfl, fun k hk => by simp at hk⟩, rfl⟩, ?_⟩
    rintro js ⟨⟨hlen2, _⟩, _⟩
    exact List.length_eq_zero.mp (by simpa using hlen2)
  | succ n ih =>
    intro arr hlen hnd l hl
    rcases Nat.eq_zero_or_pos n with hn0 | hnpos
    · subst hn0
      obtain ⟨a, harr⟩ : ∃ a, arr = [a] := by
        cases arr with
        | nil => simp at hlen
        | cons a s =>
          cases s with
          | nil => exact ⟨a, rfl⟩
          | cons b s' => simp at hlen
      subst harr
      have hl1 : l = [a] := List.perm_singleton.mp hl
      subst hl1
      refine ⟨[], ⟨⟨rfl, fun k hk => by simp at hk⟩, rfl⟩, ?_⟩
      rintro js ⟨⟨hlen2, _⟩, _⟩
      exact List.length_eq_zero.mp (by simpa using hlen2)
    · have hne : arr ≠ [] := by
        intro h
        subst h
        simp at hlen
      obtain ⟨t, x0, harr⟩ : ∃ s x0, arr = s ++ [x0] :=
        ⟨arr.dropLast, arr.getLast hne, (List.dropLast_concat_getLast hne).symm⟩
      subst harr
      have htlen : t.length = n := by simpa using hlen
      have hlne : l ≠ [] := by
        intro h
        subst h
        have := hl.length_eq
        simp at this
      have hldecomp : l.dropLast ++ [l.getLast hlne] = l :=
        List.dropLast_concat_getLast hlne
      have hymem : l.getLast hlne ∈ t ++ [x0] :=
        hl.mem_iff.mp (List.getLast_mem hlne)
      obtain ⟨j0, hj0lt, hj0⟩ := List.getElem_of_mem hymem
      have hj0le : j0 ≤ t.length := by
        simp only [List.length_append, List.length_cons, List.length_nil] at hj0lt
        omega
      have hj0getD : (t ++ [x0]).getD j0 default = l.getLast hlne := by
        rw [List.getD_eq_getElem _ _ hj0lt]
        exact hj0
      have hlnodup : l.Nodup := hl.nodup_iff.mpr hnd
      have hdropnd : l.dropLast.Nodup :=
        List.Nodup.sublist (List.dropLast_sublist l) hlnodup
      have hchain : (l.getLast hlne :: l.dropLast).Perm (t ++ [x0]) := by
        have h1 : (l.getLast hlne :: l.dropLast).Perm (l.dropLast ++ [l.getLast hlne]) :=
          (List.perm_append_singleton _ _).symm
        rw [hldecomp] at h1
        exact h1.trans hl
      have hperm' : l.dropLast.Perm (t.set j0 x0) := by
        by_cases hj0t : j0 < t.length
        · have hy_t : t.getD j0 default = l.getLast hlne := by
            rw [← hj0getD, List.getD_append _ _ _ _ hj0t]
          have key : (t.getD j0 default :: t.set j0 x0).Perm (x0 :: t) :=
            cons_getD_set_perm t j0 x0 hj0t
          have c2 : (t ++ [x0]).Perm (l.getLast hlne :: t.set j0 x0) := by
            refine (List.perm_append_singleton x0 t).trans ?_
            rw [← hy_t]
            exact key.symm
          exact List.Perm.cons_inv (hchain.trans c2)
        · have hj0e : j0 = t.length := by omega
          subst hj0e
          have hyx0 : l.getLast hlne = x0 := by
            rw [← hj0getD, List.getD_append_right _ _ _ _ (Nat.le_refl _)]
            simp
          rw [List.set_eq_of_length_le (Nat.le_refl _)]
          have c2 : (t ++ [x0]).Perm (l.getLast hlne :: t) := by
            rw [hyx0]
            exact List.perm_append_singleton x0 t
          exact List.Perm.cons_inv (hchain.trans c2)
      have hnd' : (t.set j0 x0).Nodup := hperm'.nodup_iff.mp hdropnd
      have hsetlen : (t.set j0 x0).length = n := by
        rw [List.length_set]
        exact htlen
      obtain ⟨js0, ⟨hjs0v, hjs0e⟩, hjs0u⟩ :=
        ih (t.set j0 x0) hsetlen hnd' l.dropLast hperm'
      refine ⟨j0 :: js0, ⟨?_, ?_⟩, ?_⟩
      · exact (validChoices_cons_iff n j0 js0 hnpos).mpr ⟨by omega, hjs0v⟩
      · rw [shuffleWith_cons t x0 j0 js0 hj0le (by omega)
          (fun k hk => by have := hjs0v.2 k hk; omega)]
        rw [hjs0e, hj0getD, hldecomp]
      · rintro js ⟨hjsv, hjse⟩
        have hjslen : js.length = n := by simpa using hjsv.1
        cases js with
        | nil =>
          simp at hjslen
          omega
        | cons j js' =>
          obtain ⟨hjle, hjs'v⟩ := (validChoices_cons_iff n j js' hnpos).mp hjsv
          rw [shuffleWith_cons t x0 j js' (by omega) (by omega)
            (fun k hk => by have := hjs'v.2 k hk; omega)] at hjse
          have hlast : (t ++ [x0]).getD j default = l.getLast hlne := by
            have h1 : l.getLast? = some ((t ++ [x0]).getD j default) := by
              rw [← hjse]
              exact List.getLast?_concat _
            have h2 : l.getLast? = some (l.getLast hlne) :=
              List.getLast?_eq_getLast l hlne
            exact Option.some.inj (h1.symm.trans h2)
          have hjeq : j = j0 := by
            refine nodup_getD_inj (t ++ [x0]) hnd j j0 ?_ hj0lt ?_
            · simp only [List.length_append, List.length_cons, List.length_nil]
              omega
            · rw [hlast, hj0getD]
          subst hjeq
          have hdrop : shuffleWith js' (t.set j x0) = l.dropLast := by
            have := congrArg List.dropLast hjse
            simpa using this
          rw [hjs0u js' ⟨hjs'v, hdrop⟩]

/-- Claim C8: on a duplicate-free input, the map from draw sequences to
shuffler outputs (`shuffleWith`, which `shuffleArray` factors through by
`shuffleArray_eq_shuffleWith`) reaches every permutation of the input by
exactly one valid draw sequence; since an ideal uniform source picks each
valid draw sequence with probability `1/n!`, each of the `n!` permutations
is produced with equal probability. -/
theorem C8_fy_bijection (arr : List String) (hnd : arr.Nodup)
    (l : List String) (hl : l.Perm arr) :
    ∃! js : List Nat, ValidChoices arr.length js ∧ shuffleWith js arr = l :=
  fy_exists_unique arr.length arr rfl hnd l hl

/-- Witness for C8 on a concrete two-element array and target
permutation. -/
theorem C8_fy_bijection_witness :
    (["a", "b"] : List String).Nodup ∧
      (["b", "a"] : List String).Perm ["a", "b"] ∧
      (∃! js : List Nat,
        ValidChoices (["a", "b"] : List String).length js ∧
          shuffleWith js ["a", "b"] = ["b", "a"]) :=
  ⟨by decide, by decide,
    C8_fy_bijection ["a", "b"] (by decide) ["b", "a"] (by decide)⟩

/-- The observable effects of one `checkAnswer` call (app.js lines
162–189), with the DOM and timer side effects recorded explicitly:
whether all option buttons were disabled, which class the clicked button
received, the feedback line, whether the buttons showing the correct text
were highlighted, whether the success chime played, and the delays (ms)
of the `goNext` calls handed to `setTimeout`. -/
structure CheckOutcome where
  allDisabled : Bool
  markedCorrect : Bool
  markedWrong : Bool
  feedback : String
  revealCorrect : Bool
  playedSuccessSound : Bool
  scheduledNext : List Nat
deriving Repr, DecidableEq

/-- `checkAnswer` (app.js lines 162–189): compares the selected option to
the correct answer by string equality and produces the corresponding
effects. -/
def checkAnswer (selected correct : String) : CheckOutcome :=
  if selected = correct then
    { allDisabled := true, markedCorrect := true, markedWrong := false,
      feedback := "✓ Correct!", revealCorrect := false,
      playedSuccessSound := true, scheduledNext := [1000] }
  else
    { allDisabled := true, markedCorrect := false, markedWrong := true,
      feedback := "✗ Correct answer: " ++ correct, revealCorrect := true,
      playedSuccessSound := false, scheduledNext := [] }

/-- Claim C9: answer evaluation is string equality; on a match the
selection is flagged correct and exactly one `goNext` is scheduled after
the fixed 1000 ms delay; on a mismatch the selection is flagged wrong,
the correct option is revealed, and no `goNext` is ever scheduled. -/
theorem C9_checkAnswer (selected correct : String) :
    ((checkAnswer selected correct).markedCorrect = true ↔ selected = correct) ∧
    (selected = correct →
      (checkAnswer selected correct).markedCorrect = true ∧
      (checkAnswer selected correct).markedWrong = false ∧
      (checkAnswer selected correct).revealCorrect = false ∧
      (checkAnswer selected correct).scheduledNext = [1000]) ∧
    (selected ≠ correct →
      (checkAnswer selected correct).markedWrong = true ∧
      (checkAnswer selected correct).markedCorrect = false ∧
      (checkAnswer selected correct).revealCorrect = true ∧
      (checkAnswer selected correct).scheduledNext = []) := by
  unfold checkAnswer
  by_cases h : selected = correct
  · simp [h]
  · simp [h]

/-- Witness for C9 at the spec's concrete inputs: a matching pair
("x","x") and a mismatching pair ("x","y"). -/
theorem C9_checkAnswer_witness :
    (("x" : String) = "x" ∧
      (checkAnswer "x" "x").markedCorrect = true ∧
      (checkAnswer "x" "x").markedWrong = false ∧
      (checkAnswer "x" "x").revealCorrect = false ∧
      (checkAnswer "x" "x").scheduledNext = [1000]) ∧
    (("x" : String) ≠ "y" ∧
      (checkAnswer "x" "y").markedWrong = true ∧
      (checkAnswer "x" "y").markedCorrect = false ∧
      (checkAnswer "x" "y").revealCorrect = true ∧
      (checkAnswer "x" "y").scheduledNext = []) :=
  ⟨⟨rfl, (C9_checkAnswer "x" "x").2.1 rfl⟩,
    ⟨by decide, (C9_checkAnswer "x" "y").2.2 (by decide)⟩⟩
